import Mathlib

/-!
# Verification of the flight-scraper extraction, reconciliation and diff engine

This file gives a shallow embedding, in Lean 4, of the pure core of
`src/flight_scraper.py`: the identity key and the dual-view merge of
`scrape_flights` (lines 544-581), the price-change / alert loop of
`save_to_excel` (lines 296-322, together with the `"N/A"` column fill at
lines 226-228), the record validation gate of `scrape_current_page_flights`
(lines 444-458), the container-bounding arithmetic of the same function
(lines 414-426), and the date conversion `convert_date_with_smart_year`
(lines 75-105).

Python strings are modelled as Lean `String`s, Python `float` arithmetic on
prices as exact rational arithmetic (`ℚ`), and Python dicts as last-write-wins
lookups over the insertion list.  Regular-expression matching in the source is
embedded by hand-rolled matchers that follow the concrete patterns; the
matchers work on ASCII digits and ASCII whitespace (the source's `\d` and `\s`
additionally cover rare non-ASCII digits and spaces, which never occur in the
scraped fields the patterns are applied to).
-/

namespace FlightScraper

/-- A scraped flight record.  In the source a record is a Python dict; the
fields below are the keys read or written by the merge
(`scrape_flights`, lines 544-581), the validation gate
(`scrape_current_page_flights`, lines 444-458) and the diff loop
(`save_to_excel`, lines 296-322).  A key absent from a dict is read through
`dict.get(k, default)`; here every field is always present, with the
defaults materialised by the pipeline itself. -/
structure Flight where
  depDate : String
  rtnDate : String
  depTime : String
  arrTime : String
  depAirport : String
  arrAirport : String
  duration : String
  flightNumbers : String
  airline : String
  co2 : String
  price : String
  cheapestPrice : String
  priceChange : String
  deriving DecidableEq, Repr

/-- The identity key of a record: the tuple
`(str(f["Dep Time"]), str(f["Arrival Time"]), str(f["Dep Airport"]), str(f["Arr Airport"]))`
built at `scrape_flights` lines 546-551 / 555-560 / 566-571 and at
`save_to_excel` line 300.  No normalisation is applied to the four strings. -/
def flightKey (f : Flight) : String × String × String × String :=
  (f.depTime, f.arrTime, f.depAirport, f.arrAirport)

/-- `cheapest_price_dict` (lines 544-552): a dict from identity key to the
cheapest-view price, built by inserting every record of the cheapest view in
order, so for a duplicated key the *last* record wins; a missing key looks up
to `"N/A"` (line 561, `.get(key, "N/A")`). -/
def cheapestLookup (cheap : List Flight) (k : String × String × String × String) : String :=
  match cheap.reverse.find? (fun g => decide (flightKey g = k)) with
  | some g => g.price
  | none => "N/A"

/-- Lines 554-561: every default-view record gets its `"Cheapest Price"`
field set to the dict value for its key (or `"N/A"`). -/
def fillCheapest (cheap : List Flight) (A : List Flight) : List Flight :=
  A.map (fun f => { f with cheapestPrice := cheapestLookup cheap (flightKey f) })

/-- The cheapest-only transform applied at lines 579-580: `cf["Price"] = "N/A"`
and `cf["Cheapest Price"] = original_price` where `original_price` is the
record's own price read at line 565. -/
def cheapestOnly (cf : Flight) : Flight :=
  { cf with price := "N/A", cheapestPrice := cf.price }

/-- Lines 563-581: starting from the filled default-view list, walk the
cheapest view in order; a cheapest record whose four key fields match no
record already accumulated is appended with `"Price"` set to `"N/A"` and
`"Cheapest Price"` set to its own original price.  The source compares the
four key fields one by one, which is exactly equality of the key tuples. -/
def addCheapestOnly (M : List Flight) (cheap : List Flight) : List Flight :=
  cheap.foldl
    (fun acc cf =>
      if acc.any (fun f => decide (flightKey f = flightKey cf)) then acc
      else acc ++ [cheapestOnly cf])
    M

@[simp] theorem addCheapestOnly_nil (M : List Flight) : addCheapestOnly M [] = M := rfl

theorem addCheapestOnly_cons (M : List Flight) (b : Flight) (rest : List Flight) :
    addCheapestOnly M (b :: rest) =
      addCheapestOnly
        (if M.any (fun f => decide (flightKey f = flightKey b)) then M
         else M ++ [cheapestOnly b]) rest := rfl

/-- The dual-view reconciler of `scrape_flights` (lines 544-581): fill the
default view `A` with cheapest prices from `B`, then append the
cheapest-only records of `B`. -/
def mergeFlights (A B : List Flight) : List Flight :=
  addCheapestOnly (fillCheapest B A) B

@[simp] theorem flightKey_fill (cheap : List Flight) (f : Flight) :
    flightKey { f with cheapestPrice := cheapestLookup cheap (flightKey f) } = flightKey f := rfl

@[simp] theorem flightKey_cheapestOnly (cf : Flight) :
    flightKey (cheapestOnly cf) = flightKey cf := rfl

theorem keys_fillCheapest (cheap A : List Flight) :
    (fillCheapest cheap A).map flightKey = A.map flightKey := by
  simp [fillCheapest, List.map_map]

theorem addCheapestOnly_key_mem (cheap : List Flight) :
    ∀ (M : List Flight) (k : String × String × String × String),
      k ∈ (addCheapestOnly M cheap).map flightKey ↔
        k ∈ M.map flightKey ∨ k ∈ cheap.map flightKey := by
  induction cheap with
  | nil => intro M k; simp
  | cons b rest ih =>
    intro M k
    by_cases h : M.any (fun f => decide (flightKey f = flightKey b))
    · have hmem : flightKey b ∈ M.map flightKey := by
        rcases List.any_eq_true.mp h with ⟨f, hf, hfk⟩
        exact List.mem_map.mpr ⟨f, hf, (of_decide_eq_true hfk).symm ▸ rfl⟩
      rw [addCheapestOnly_cons, if_pos h, ih M k]
      constructor
      · rintro (hM | hr)
        · exact Or.inl hM
        · exact Or.inr (by simp [hr])
      · rintro (hM | hr)
        · exact Or.inl hM
        · rw [List.map_cons] at hr
          rcases List.mem_cons.mp hr with he | hr2
          · exact Or.inl (he ▸ hmem)
          · exact Or.inr hr2
    · rw [addCheapestOnly_cons, if_neg h, ih (M ++ [cheapestOnly b]) k]
      simp only [List.map_append, List.mem_append, List.map_cons, List.mem_cons,
        List.map_nil, flightKey_cheapestOnly, List.mem_singleton]
      tauto

theorem addCheapestOnly_nodup (cheap : List Flight) :
    ∀ (M : List Flight), (M.map flightKey).Nodup →
      ((addCheapestOnly M cheap).map flightKey).Nodup := by
  induction cheap with
  | nil => intro M hM; simpa using hM
  | cons b rest ih =>
    intro M hM
    by_cases h : M.any (fun f => decide (flightKey f = flightKey b))
    · rw [addCheapestOnly_cons, if_pos h]; exact ih M hM
    · have hnot : flightKey b ∉ M.map flightKey := by
        intro hmem
        rcases List.mem_map.mp hmem with ⟨f, hf, hfk⟩
        exact h (List.any_eq_true.mpr ⟨f, hf, decide_eq_true hfk⟩)
      rw [addCheapestOnly_cons, if_neg h]
      refine ih _ ?_
      simp only [List.map_append, List.map_cons, List.map_nil, flightKey_cheapestOnly]
      rw [List.nodup_append]
      refine ⟨hM, List.nodup_singleton _, ?_⟩
      intro a ha hb
      rcases List.mem_singleton.mp hb with rfl
      exact hnot ha

theorem addCheapestOnly_mem_elim (cheap : List Flight) :
    ∀ (M : List Flight) (m : Flight), m ∈ addCheapestOnly M cheap →
      m ∈ M ∨ ∃ b ∈ cheap, m = cheapestOnly b ∧ flightKey b ∉ M.map flightKey := by
  induction cheap with
  | nil => intro M m hm; exact Or.inl (by simpa using hm)
  | cons b rest ih =>
    intro M m hm
    by_cases h : M.any (fun f => decide (flightKey f = flightKey b))
    · rw [addCheapestOnly_cons, if_pos h] at hm
      rcases ih M m hm with hM | ⟨b', hb', hmb, hnk⟩
      · exact Or.inl hM
      · exact Or.inr ⟨b', by simp [hb'], hmb, hnk⟩
    · have hnot : flightKey b ∉ M.map flightKey := by
        intro hmem
        rcases List.mem_map.mp hmem with ⟨f, hf, hfk⟩
        exact h (List.any_eq_true.mpr ⟨f, hf, decide_eq_true hfk⟩)
      rw [addCheapestOnly_cons, if_neg h] at hm
      rcases ih _ m hm with hM | ⟨b', hb', hmb, hnk⟩
      · rcases List.mem_append.mp hM with hM' | hb
        · exact Or.inl hM'
        · rcases List.mem_singleton.mp hb with rfl
          exact Or.inr ⟨b, by simp, rfl, hnot⟩
      · refine Or.inr ⟨b', by simp [hb'], hmb, ?_⟩
        intro hk
        exact hnk (by simp [hk])

/-- Two list elements whose images under a key function coincide are equal
when the key list has no duplicates. -/
theorem key_injective {α β : Type} {l : List α} {f : α → β}
    (h : (l.map f).Nodup) {a b : α} (ha : a ∈ l) (hb : b ∈ l) (hf : f a = f b) :
    a = b :=
  List.inj_on_of_nodup_map h ha hb hf

theorem cheapestLookup_mem {B : List Flight} (hB : (B.map flightKey).Nodup)
    {b : Flight} (hb : b ∈ B) : cheapestLookup B (flightKey b) = b.price := by
  rcases hfind : B.reverse.find? (fun g => decide (flightKey g = flightKey b)) with _ | g
  · exfalso
    have := List.find?_eq_none.mp hfind b (List.mem_reverse.mpr hb)
    simp at this
  · have hp0 := List.find?_some hfind
    simp only [decide_eq_true_eq] at hp0
    have hp : flightKey g = flightKey b := hp0
    have hg : g ∈ B := List.mem_reverse.mp (List.mem_of_find?_eq_some hfind)
    have hgb : g = b := key_injective hB hg hb hp
    simp [cheapestLookup, hfind, hgb]

theorem cheapestLookup_not_mem {B : List Flight} {k : String × String × String × String}
    (h : k ∉ B.map flightKey) : cheapestLookup B k = "N/A" := by
  have hfind : B.reverse.find? (fun g => decide (flightKey g = k)) = none := by
    rw [List.find?_eq_none]
    intro g hg
    simp only [decide_eq_true_eq]
    intro hk
    exact h (List.mem_map.mpr ⟨g, List.mem_reverse.mp hg, hk⟩)
  simp [cheapestLookup, hfind]

theorem merge_keys (A B : List Flight) (k : String × String × String × String) :
    k ∈ (mergeFlights A B).map flightKey ↔
      k ∈ A.map flightKey ∨ k ∈ B.map flightKey := by
  rw [mergeFlights, addCheapestOnly_key_mem, keys_fillCheapest]

theorem merge_keys_nodup (A B : List Flight) (hA : (A.map flightKey).Nodup) :
    ((mergeFlights A B).map flightKey).Nodup :=
  addCheapestOnly_nodup B _ (by rw [keys_fillCheapest]; exact hA)

/-- A merged record whose key is the key of some `a ∈ A` is exactly the
cheapest-price-filled copy of that `a`. -/
theorem merge_elem_of_key_in_A {A B : List Flight} (hA : (A.map flightKey).Nodup)
    {a : Flight} (ha : a ∈ A) {m : Flight} (hm : m ∈ mergeFlights A B)
    (hk : flightKey m = flightKey a) :
    m = { a with cheapestPrice := cheapestLookup B (flightKey a) } := by
  rcases addCheapestOnly_mem_elim B (fillCheapest B A) m hm with hM0 | ⟨b, hb, hmb, hnk⟩
  · rcases List.mem_map.mp (by simpa [fillCheapest] using hM0) with ⟨a2, ha2, hma⟩
    have hk2 : flightKey a2 = flightKey a := by
      rw [← hma] at hk; simpa using hk
    have : a2 = a := key_injective hA ha2 ha hk2
    subst this
    rw [← hma, hk2]
  · exfalso
    apply hnk
    rw [keys_fillCheapest]
    have : flightKey b = flightKey a := by rw [← hk, hmb, flightKey_cheapestOnly]
    rw [this]
    exact List.mem_map.mpr ⟨a, ha, rfl⟩

/-- A merged record whose key is the key of a cheapest-only `b ∈ B` (key not
in `A`) is exactly the `cheapestOnly` transform of that `b`. -/
theorem merge_elem_of_key_only_B {A B : List Flight} (hB : (B.map flightKey).Nodup)
    {b : Flight} (hb : b ∈ B) (hbA : flightKey b ∉ A.map flightKey)
    {m : Flight} (hm : m ∈ mergeFlights A B) (hk : flightKey m = flightKey b) :
    m = cheapestOnly b := by
  rcases addCheapestOnly_mem_elim B (fillCheapest B A) m hm with hM0 | ⟨b2, hb2, hmb, hnk⟩
  · exfalso
    apply hbA
    rw [← hk]
    have : flightKey m ∈ (fillCheapest B A).map flightKey := List.mem_map.mpr ⟨m, hM0, rfl⟩
    rwa [keys_fillCheapest] at this
  · have hk2 : flightKey b2 = flightKey b := by rw [← hk, hmb, flightKey_cheapestOnly]
    have : b2 = b := key_injective hB hb2 hb hk2
    subst this
    exact hmb

/-- Two nodup key lists with the same members have the same length. -/
theorem nodup_same_mem_length {α : Type} [DecidableEq α] {l1 l2 : List α}
    (h1 : l1.Nodup) (h2 : l2.Nodup) (hm : ∀ a, a ∈ l1 ↔ a ∈ l2) :
    l1.length = l2.length := by
  have hf : l1.toFinset = l2.toFinset := by
    apply Finset.ext
    intro a
    rw [List.mem_toFinset, List.mem_toFinset]
    exact hm a
  calc l1.length = l1.toFinset.card := (List.toFinset_card_of_nodup h1).symm
    _ = l2.toFinset.card := by rw [hf]
    _ = l2.length := List.toFinset_card_of_nodup h2

theorem countP_eq_one_of_nodup_mem {α : Type} [DecidableEq α] {l : List α}
    (h : l.Nodup) {k : α} (hk : k ∈ l) :
    l.countP (fun x => decide (x = k)) = 1 := by
  induction l with
  | nil => cases hk
  | cons a l ih =>
    rw [List.countP_cons]
    rcases List.mem_cons.mp hk with rfl | hk2
    · have h0 : l.countP (fun x => decide (x = k)) = 0 := by
        apply List.countP_eq_zero.mpr
        intro x hx
        simp only [decide_eq_true_eq]
        intro he
        exact (List.nodup_cons.mp h).1 (he ▸ hx)
      simp [h0]
    · have hne : ¬ (a = k) := fun he => (List.nodup_cons.mp h).1 (he ▸ hk2)
      rw [ih (List.nodup_cons.mp h).2 hk2]
      simp [hne]

/-- C1.  Reconciliation completeness: under the design assumption that the
identity keys within the default view `A` are pairwise distinct, every
identity key occurring in `A` or `B` occurs in the merged list exactly once
(keys occurring in neither occur zero times), and the merged list has as many
records as there are distinct identity keys in `A` and `B` together. -/
theorem merge_completeness (A B : List Flight) (hA : (A.map flightKey).Nodup) :
    (∀ k, ((mergeFlights A B).map flightKey).countP (fun x => decide (x = k)) =
      (if k ∈ A.map flightKey ∨ k ∈ B.map flightKey then 1 else 0))
    ∧ (mergeFlights A B).length =
        ((A.map flightKey ++ B.map flightKey).dedup).length := by
  have hnodup : ((mergeFlights A B).map flightKey).Nodup := merge_keys_nodup A B hA
  constructor
  · intro k
    by_cases hk : k ∈ A.map flightKey ∨ k ∈ B.map flightKey
    · rw [if_pos hk]
      exact countP_eq_one_of_nodup_mem hnodup ((merge_keys A B k).mpr hk)
    · rw [if_neg hk]
      apply List.countP_eq_zero.mpr
      intro x hx
      simp only [decide_eq_true_eq]
      intro he
      exact hk ((merge_keys A B k).mp (he ▸ hx))
  · have hlen : (mergeFlights A B).length = ((mergeFlights A B).map flightKey).length :=
      (List.length_map _ _).symm
    rw [hlen]
    apply nodup_same_mem_length hnodup (List.nodup_dedup _)
    intro k
    rw [List.mem_dedup, List.mem_append, merge_keys]

/-- C2.  Price fields of the merge: with pairwise-distinct keys inside each
view, a key present in both views yields a merged record carrying the
`A`-price in `price` and the `B`-price in `cheapestPrice`; a key present only
in `B` yields `price = "N/A"` and `cheapestPrice` the `B`-price; a key
present only in `A` yields `cheapestPrice = "N/A"` (and the `A`-price).
Each case also asserts that such a merged record exists. -/
theorem merge_price_fields (A B : List Flight)
    (hA : (A.map flightKey).Nodup) (hB : (B.map flightKey).Nodup) :
    (∀ a ∈ A, ∀ b ∈ B, flightKey a = flightKey b →
      (∃ m ∈ mergeFlights A B, flightKey m = flightKey a) ∧
      (∀ m ∈ mergeFlights A B, flightKey m = flightKey a →
        m.price = a.price ∧ m.cheapestPrice = b.price))
    ∧ (∀ b ∈ B, flightKey b ∉ A.map flightKey →
      (∃ m ∈ mergeFlights A B, flightKey m = flightKey b) ∧
      (∀ m ∈ mergeFlights A B, flightKey m = flightKey b →
        m.price = "N/A" ∧ m.cheapestPrice = b.price))
    ∧ (∀ a ∈ A, flightKey a ∉ B.map flightKey →
      (∃ m ∈ mergeFlights A B, flightKey m = flightKey a) ∧
      (∀ m ∈ mergeFlights A B, flightKey m = flightKey a →
        m.price = a.price ∧ m.cheapestPrice = "N/A")) := by
  have hex : ∀ k, k ∈ A.map flightKey ∨ k ∈ B.map flightKey →
      ∃ m ∈ mergeFlights A B, flightKey m = k := by
    intro k hk
    rcases List.mem_map.mp ((merge_keys A B k).mpr hk) with ⟨m, hm, hmk⟩
    exact ⟨m, hm, hmk⟩
  refine ⟨?_, ?_, ?_⟩
  · intro a ha b hb hab
    refine ⟨hex _ (Or.inl (List.mem_map.mpr ⟨a, ha, rfl⟩)), ?_⟩
    intro m hm hk
    have hma := merge_elem_of_key_in_A hA ha hm hk
    rw [hma]
    refine ⟨rfl, ?_⟩
    show cheapestLookup B (flightKey a) = b.price
    rw [hab]
    exact cheapestLookup_mem hB hb
  · intro b hb hbA
    refine ⟨hex _ (Or.inr (List.mem_map.mpr ⟨b, hb, rfl⟩)), ?_⟩
    intro m hm hk
    have hmb := merge_elem_of_key_only_B hB hb hbA hm hk
    rw [hmb]
    exact ⟨rfl, rfl⟩
  · intro a ha haB
    refine ⟨hex _ (Or.inl (List.mem_map.mpr ⟨a, ha, rfl⟩)), ?_⟩
    intro m hm hk
    have hma := merge_elem_of_key_in_A hA ha hm hk
    rw [hma]
    refine ⟨rfl, ?_⟩
    show cheapestLookup B (flightKey a) = "N/A"
    exact cheapestLookup_not_mem haB

/-- A sample validated record, used to instantiate witness theorems. -/
def sampleFlight (dT aT dA aA p : String) : Flight :=
  { depDate := "2026-11-03", rtnDate := "", depTime := dT, arrTime := aT,
    depAirport := dA, arrAirport := aA, duration := "7 hr 55 min",
    flightNumbers := "BA 117", airline := "British Airways",
    co2 := "518 kg CO2e", price := p, cheapestPrice := "N/A", priceChange := "" }

def wDefaultView : List Flight :=
  [sampleFlight "10:00" "12:00" "LHR" "JFK" "£245",
   sampleFlight "14:00" "16:05" "LHR" "JFK" "£310"]

def wCheapView : List Flight :=
  [sampleFlight "10:00" "12:00" "LHR" "JFK" "£199",
   sampleFlight "06:00" "08:10" "LHR" "JFK" "£150"]

theorem merge_completeness_witness :
    ((mergeFlights wDefaultView wCheapView).map flightKey).countP
        (fun x => decide (x = ("06:00", "08:10", "LHR", "JFK"))) = 1 ∧
    (mergeFlights wDefaultView wCheapView).length =
      ((wDefaultView.map flightKey ++ wCheapView.map flightKey).dedup).length := by
  have h := merge_completeness wDefaultView wCheapView (by decide)
  refine ⟨?_, h.2⟩
  rw [h.1 ("06:00", "08:10", "LHR", "JFK")]
  decide

theorem merge_price_fields_witness :
    ({ sampleFlight "10:00" "12:00" "LHR" "JFK" "£245" with
        cheapestPrice := "£199" } : Flight).price = "£245" ∧
    ({ sampleFlight "10:00" "12:00" "LHR" "JFK" "£245" with
        cheapestPrice := "£199" } : Flight).cheapestPrice = "£199" := by
  have h := (merge_price_fields wDefaultView wCheapView (by decide) (by decide)).1
    (sampleFlight "10:00" "12:00" "LHR" "JFK" "£245") (by decide)
    (sampleFlight "10:00" "12:00" "LHR" "JFK" "£199") (by decide) (by decide)
  exact h.2 _ (by decide) (by decide)

/-- A default-view record and a cheapest-view record that agree on the four
key fields except for the letter case of the departure airport. -/
def caseFlightA : Flight := sampleFlight "10:00" "12:00" "LHR" "JFK" "£245"

def caseFlightB : Flight := sampleFlight "10:00" "12:00" "lhr" "JFK" "£199"

/-- C9, counterexample.  The identity key is *not* case-normalized: two
records whose key fields differ only in the letter case of the departure
airport are treated as different offers — the merge keeps both (two records
instead of one) and does not transfer the cheapest-view price onto the
default-view record. -/
theorem key_normalization_counterexample :
    caseFlightB.depTime = caseFlightA.depTime ∧
    caseFlightB.arrTime = caseFlightA.arrTime ∧
    caseFlightB.arrAirport = caseFlightA.arrAirport ∧
    caseFlightA.depAirport = "LHR" ∧ caseFlightB.depAirport = "lhr" ∧
    (mergeFlights [caseFlightA] [caseFlightB]).length = 2 ∧
    (mergeFlights [caseFlightA] [caseFlightB]).map Flight.cheapestPrice =
      ["N/A", "£199"] := by
  decide

/-- C9, amended.  The identity key used by the reconciler is the raw
four-string tuple compared by exact string equality, with no case or
whitespace normalization: a singleton default view and a singleton cheapest
view collapse to one merged record precisely when the raw tuples are equal. -/
theorem key_exact_equality (a b : Flight) :
    (mergeFlights [a] [b]).length = 1 ↔ flightKey a = flightKey b := by
  by_cases h : flightKey a = flightKey b
  · simp only [mergeFlights, fillCheapest, List.map_cons, List.map_nil,
      addCheapestOnly_cons, addCheapestOnly_nil]
    rw [if_pos]
    · simp [h]
    · apply List.any_eq_true.mpr
      refine ⟨_, List.mem_singleton_self _, ?_⟩
      exact decide_eq_true h
  · simp only [mergeFlights, fillCheapest, List.map_cons, List.map_nil,
      addCheapestOnly_cons, addCheapestOnly_nil]
    rw [if_neg]
    · simp [h]
    · intro hany
      rcases List.any_eq_true.mp hany with ⟨f, hf, hfk⟩
      rcases List.mem_singleton.mp hf with rfl
      exact h (by simpa using of_decide_eq_true hfk)

/-! ## The snapshot differ (`save_to_excel`, lines 296-322)

Prices are compared after `float(re.sub(r"[^\d.]", "", str(val)))`: every
character other than a digit or a dot is removed and the remainder is parsed
as a number.  Python `float` arithmetic is modelled by exact rationals. -/

/-- `re.sub(r"[^\d.]", "", s)`: keep only digits and dots. -/
def stripNonNumeric (s : String) : String :=
  ⟨s.data.filter (fun c => c.isDigit || c = '.')⟩

/-- Numeric value of a list of ASCII digits. -/
def digitsVal (ds : List Char) : ℕ :=
  ds.foldl (fun a c => 10 * a + (c.toNat - 48)) 0

/-- Python `float()` on a string known to consist of digits and dots only:
it succeeds iff there is at most one dot and at least one digit, giving
`intpart.fracpart`. -/
def floatOfDigitsDots (cs : List Char) : Option ℚ :=
  let ip := cs.takeWhile (fun c => c ≠ '.')
  let rest := cs.dropWhile (fun c => c ≠ '.')
  match rest with
  | [] => if ip.isEmpty then none else some (digitsVal ip)
  | _ :: fp =>
    if fp.any (fun c => c = '.') then none
    else if ip.isEmpty && fp.isEmpty then none
    else some ((digitsVal ip : ℚ) + (digitsVal fp : ℚ) / (10 : ℚ) ^ fp.length)

/-- The numeric reading of a price string used at lines 306-307. -/
def parsePrice (s : String) : Option ℚ :=
  floatOfDigitsDots (stripNonNumeric s).data

/-- `f"{x:.0f}"` rounds half to even. -/
def roundHalfEven (q : ℚ) : ℤ :=
  let f := ⌊q⌋
  let r := q - (f : ℚ)
  if r < 1 / 2 then f
  else if 1 / 2 < r then f + 1
  else if f % 2 = 0 then f else f + 1

/-- Default of the env-configurable `TELEGRAM_ALERT_THRESHOLD` (line 34). -/
def TELEGRAM_ALERT_THRESHOLD : ℚ := 1 / 100

/-- The body of the loop at lines 304-322 for one non-skipped row: given the
previous price looked up by identity key (`None` when the key is absent from
the prior snapshot) and the current price, produce the `"Price Change"`
string and whether a Telegram alert is dispatched.  Mirrors the source:
truthiness and `"N/A"` guards, numeric parse of both sides (a parse failure
raises and the `except` arm writes `""`), `+`-prefixed positive difference,
bare negative difference with the alert fired when
`abs(price_diff) / prev_val > TELEGRAM_ALERT_THRESHOLD`, and `""` for a zero
difference.  (`prev_val = 0` together with `price_diff < 0` is impossible
since parsed prices are nonnegative, so the `ZeroDivisionError` path is
dead; rational division by zero is junk-valued but unreachable there.) -/
def priceChangeOf (threshold : ℚ) (prevPrice : Option String) (currPrice : String) :
    String × Bool :=
  match prevPrice with
  | none => ("", false)
  | some prev =>
    if prev ≠ "" ∧ currPrice ≠ "" ∧ prev ≠ "N/A" ∧ currPrice ≠ "N/A" then
      match parsePrice prev, parsePrice currPrice with
      | some prevVal, some currVal =>
        if 0 < currVal - prevVal then
          ("+" ++ toString (roundHalfEven (currVal - prevVal)), false)
        else if currVal - prevVal < 0 then
          ("-" ++ toString (roundHalfEven (-(currVal - prevVal))),
            decide (threshold < |currVal - prevVal| / prevVal))
        else ("", false)
      | _, _ => ("", false)
    else ("", false)

/-- One row of the diff loop (lines 297-322).  The row with *original* index
label 0 is skipped (`if idx == 0: continue`), so its `"Price Change"` keeps
the DataFrame column fill `"N/A"` of lines 226-228.  Modelled from the spec:
`extract_flight_data` is truncated in the source, and per the spec's record
lifecycle (§3) `priceChange` is written only by the differ, so no record
reaching `save_to_excel` carries a `"Price Change"` key and the fill applies
to the whole column. -/
def diffRow (threshold : ℚ)
    (prevPrices : String × String × String × String → Option String)
    (idx : ℕ) (row : Flight) : Flight × Bool :=
  if idx = 0 then ({ row with priceChange := "N/A" }, false)
  else
    let pc := priceChangeOf threshold (prevPrices (flightKey row)) row.price
    ({ row with priceChange := pc.1 }, pc.2)

/-- The diff loop over all rows.  The source iterates the price-sorted
DataFrame, but each assignment `combined.at[idx, "Price Change"]` is keyed by
the row's original index label and depends only on that row and on
`previous_prices`, so the per-index results are the same in whatever order
the rows are visited; we visit them in original (merge) order. -/
def processPriceChanges (threshold : ℚ)
    (prevPrices : String × String × String × String → Option String)
    (rows : List Flight) : List (Flight × Bool) :=
  rows.enum.map (fun p => diffRow threshold prevPrices p.1 p.2)

theorem parsePrice_empty : parsePrice "" = none := rfl

theorem parsePrice_na : parsePrice "N/A" = none := by decide

/-- Characterization of the alert decision of `priceChangeOf`. -/
theorem priceChangeOf_alert_iff (θ : ℚ) (prev : Option String) (curr : String) :
    (priceChangeOf θ prev curr).2 = true ↔
      ∃ p prevVal currVal, prev = some p ∧
        parsePrice p = some prevVal ∧ parsePrice curr = some currVal ∧
        currVal - prevVal < 0 ∧ θ < |currVal - prevVal| / prevVal := by
  cases prev with
  | none => simp [priceChangeOf]
  | some p =>
    rw [priceChangeOf]
    by_cases hguard : p ≠ "" ∧ curr ≠ "" ∧ p ≠ "N/A" ∧ curr ≠ "N/A"
    · rw [if_pos hguard]
      cases hp : parsePrice p with
      | none =>
        apply iff_of_false (by simp)
        rintro ⟨p2, pv2, cv2, hp2, hpv2, hcv2, hneg, hth⟩
        injection hp2 with hpp
        subst hpp
        rw [hp] at hpv2
        cases hpv2
      | some prevVal =>
        cases hc : parsePrice curr with
        | none =>
          apply iff_of_false (by simp)
          rintro ⟨p2, pv2, cv2, hp2, hpv2, hcv2, hneg, hth⟩
          exact Option.noConfusion hcv2
        | some currVal =>
          show ((if 0 < currVal - prevVal then
                ("+" ++ toString (roundHalfEven (currVal - prevVal)), false)
              else if currVal - prevVal < 0 then
                ("-" ++ toString (roundHalfEven (-(currVal - prevVal))),
                  decide (θ < |currVal - prevVal| / prevVal))
              else ("", false)).2 = true) ↔ _
          by_cases hpos : 0 < currVal - prevVal
          · rw [if_pos hpos]
            apply iff_of_false (by simp)
            rintro ⟨p2, pv2, cv2, hp2, hpv2, hcv2, hneg, hth⟩
            injection hp2 with hpp
            subst hpp
            rw [hp] at hpv2
            injection hpv2 with hpv3
            subst hpv3
            injection hcv2 with hcv3
            subst hcv3
            linarith
          · rw [if_neg hpos]
            by_cases hneg : currVal - prevVal < 0
            · rw [if_pos hneg]
              show decide (θ < |currVal - prevVal| / prevVal) = true ↔ _
              rw [decide_eq_true_eq]
              constructor
              · intro hth
                exact ⟨p, prevVal, currVal, rfl, hp, rfl, hneg, hth⟩
              · rintro ⟨p2, pv2, cv2, hp2, hpv2, hcv2, hneg2, hth⟩
                injection hp2 with hpp
                subst hpp
                rw [hp] at hpv2
                injection hpv2 with hpv3
                subst hpv3
                injection hcv2 with hcv3
                subst hcv3
                exact hth
            · rw [if_neg hneg]
              apply iff_of_false (by simp)
              rintro ⟨p2, pv2, cv2, hp2, hpv2, hcv2, hneg2, hth⟩
              injection hp2 with hpp
              subst hpp
              rw [hp] at hpv2
              injection hpv2 with hpv3
              subst hpv3
              injection hcv2 with hcv3
              subst hcv3
              exact absurd hneg2 hneg
    · rw [if_neg hguard]
      apply iff_of_false (by simp)
      rintro ⟨p2, pv2, cv2, hp2, hpv2, hcv2, hneg, hth⟩
      injection hp2 with hpp
      subst hpp
      push_neg at hguard
      have h1 : p ≠ "" := fun he => by rw [he, parsePrice_empty] at hpv2; cases hpv2
      have h2 : curr ≠ "" := fun he => by rw [he, parsePrice_empty] at hcv2; cases hcv2
      have h3 : p ≠ "N/A" := fun he => by rw [he, parsePrice_na] at hpv2; cases hpv2
      have h4 := hguard h1 h2 h3
      rw [h4, parsePrice_na] at hcv2
      cases hcv2

/-- Specialisation of `priceChangeOf_alert_iff` to a non-skipped diff row. -/
theorem alert_iff_aux (θ : ℚ)
    (prevPrices : String × String × String × String → Option String)
    (i : ℕ) (f : Flight) (hi : i ≠ 0) :
    (diffRow θ prevPrices i f).2 = true ↔
      ∃ p prevVal currVal, prevPrices (flightKey f) = some p ∧
        parsePrice p = some prevVal ∧ parsePrice f.price = some currVal ∧
        currVal - prevVal < 0 ∧ θ < |currVal - prevVal| / prevVal := by
  rw [diffRow, if_neg hi]
  exact priceChangeOf_alert_iff θ (prevPrices (flightKey f)) f.price

theorem parse100 : parsePrice "£100" = some 100 := by
  have h : parsePrice "£100" = some ((100 : ℕ) : ℚ) := rfl
  rw [h]; norm_num

theorem parse80 : parsePrice "£80" = some 80 := by
  have h : parsePrice "£80" = some ((80 : ℕ) : ℚ) := rfl
  rw [h]; norm_num

theorem parse995 : parsePrice "£99.5" = some (199 / 2) := by
  have h : parsePrice "£99.5" = some (((99 : ℕ) : ℚ) + ((5 : ℕ) : ℚ) / (10 : ℚ) ^ (1 : ℕ)) := rfl
  rw [h]; norm_num

/-- Reduction of `priceChangeOf` when the guard passes and both sides parse. -/
theorem priceChangeOf_some_some (θ : ℚ) (prev curr : String) (prevVal currVal : ℚ)
    (hg : prev ≠ "" ∧ curr ≠ "" ∧ prev ≠ "N/A" ∧ curr ≠ "N/A")
    (hp : parsePrice prev = some prevVal) (hc : parsePrice curr = some currVal) :
    priceChangeOf θ (some prev) curr =
      if 0 < currVal - prevVal then
        ("+" ++ toString (roundHalfEven (currVal - prevVal)), false)
      else if currVal - prevVal < 0 then
        ("-" ++ toString (roundHalfEven (-(currVal - prevVal))),
          decide (θ < |currVal - prevVal| / prevVal))
      else ("", false) := by
  rw [priceChangeOf, if_pos hg, hp, hc]

theorem priceChangeOf_100_100 :
    priceChangeOf TELEGRAM_ALERT_THRESHOLD (some "£100") "£100" = ("", false) := by
  rw [priceChangeOf_some_some TELEGRAM_ALERT_THRESHOLD "£100" "£100" 100 100
      (by decide) parse100 parse100]
  rw [if_neg (by norm_num), if_neg (by norm_num)]

/-- C3.  Alert trigger: for a non-skipped row, an alert is dispatched exactly
when the previous price (found in the snapshot by identity key) and the
current price both parse numerically, the difference is negative, and its
magnitude relative to the previous price strictly exceeds the threshold.
Concretely, with the default threshold 0.01: previous 100 / current 80 fires
an alert, previous 100 / current 99.5 does not, and previous 100 / current
100 yields an empty `priceChange` string and no alert. -/
theorem alert_trigger :
    (∀ (θ : ℚ) (prevPrices : String × String × String × String → Option String)
        (i : ℕ) (f : Flight), i ≠ 0 →
      ((diffRow θ prevPrices i f).2 = true ↔
        ∃ p prevVal currVal, prevPrices (flightKey f) = some p ∧
          parsePrice p = some prevVal ∧ parsePrice f.price = some currVal ∧
          currVal - prevVal < 0 ∧ θ < |currVal - prevVal| / prevVal))
    ∧ (priceChangeOf TELEGRAM_ALERT_THRESHOLD (some "£100") "£80").2 = true
    ∧ (priceChangeOf TELEGRAM_ALERT_THRESHOLD (some "£100") "£99.5").2 = false
    ∧ priceChangeOf TELEGRAM_ALERT_THRESHOLD (some "£100") "£100" = ("", false) := by
  refine ⟨alert_iff_aux, ?_, ?_, priceChangeOf_100_100⟩
  · rw [priceChangeOf_some_some TELEGRAM_ALERT_THRESHOLD "£100" "£80" 100 80
        (by decide) parse100 parse80]
    rw [if_neg (by norm_num), if_pos (by norm_num)]
    rw [decide_eq_true_eq, TELEGRAM_ALERT_THRESHOLD]
    norm_num
  · rw [priceChangeOf_some_some TELEGRAM_ALERT_THRESHOLD "£100" "£99.5" 100 (199 / 2)
        (by decide) parse100 parse995]
    rw [if_neg (by norm_num), if_pos (by norm_num)]
    rw [decide_eq_false_iff_not, TELEGRAM_ALERT_THRESHOLD]
    have habs : |(199 : ℚ) / 2 - 100| = 1 / 2 := by
      rw [show (199 : ℚ) / 2 - 100 = -(1 / 2) by norm_num, abs_neg,
        abs_of_pos (show (0 : ℚ) < 1 / 2 by norm_num)]
    rw [habs]
    norm_num

theorem alert_trigger_witness :
    (diffRow TELEGRAM_ALERT_THRESHOLD (fun _ => some "£100") 1
        (sampleFlight "10:00" "12:00" "LHR" "JFK" "£80")).2 = true := by
  have h := alert_trigger.1 TELEGRAM_ALERT_THRESHOLD (fun _ => some "£100") 1
      (sampleFlight "10:00" "12:00" "LHR" "JFK" "£80") (by decide)
  refine h.mpr ⟨"£100", 100, 80, rfl, parse100, parse80, by norm_num, ?_⟩
  rw [TELEGRAM_ALERT_THRESHOLD]
  norm_num

/-- C4, counterexample.  With an empty prior snapshot the differ does *not*
set `priceChange` to the empty string for *every* merged record: the record
at original (merge) index 0 is skipped by `if idx == 0: continue` and keeps
the DataFrame column fill `"N/A"`, which is not the empty string. -/
theorem no_snapshot_counterexample :
    (processPriceChanges TELEGRAM_ALERT_THRESHOLD (fun _ => none)
        [sampleFlight "10:00" "12:00" "LHR" "JFK" "£245"]).map
      (fun p => p.1.priceChange) = ["N/A"] ∧ ("N/A" : String) ≠ "" := by
  constructor
  · rfl
  · decide

/-- C4, amended.  With an empty prior snapshot (`S = ∅`, every identity-key
lookup returns nothing) the differ sets `priceChange` to the empty string for
every merged record *except* the one at original merge index 0, which is
skipped and keeps the `"N/A"` column fill; no alert fires for any record. -/
theorem no_snapshot_amended (θ : ℚ) (rows : List Flight) :
    processPriceChanges θ (fun _ => none) rows =
      rows.enum.map (fun p =>
        ({ p.2 with priceChange := if p.1 = 0 then "N/A" else "" }, false)) := by
  unfold processPriceChanges
  apply List.map_congr_left
  rintro ⟨i, f⟩ hp
  by_cases hi : i = 0
  · subst hi
    simp [diffRow]
  · simp [diffRow, priceChangeOf, hi]

/-! ## The validation gate (`scrape_current_page_flights`, lines 444-458)

Each extracted record's CO2 text and price text are stripped; the record is
kept iff the lowercased CO2 text matches `^\d+\s?kg\s?(co2e?|co₂e?)$` and
the price text matches `^[£$€]\s?\d+`.  The regexes are embedded as
deterministic matchers: determinism is sound because in both patterns the
token after `\d+` or `\s?` can never be a digit resp. a whitespace
character, so the greedy reading is the only one. -/

/-- ASCII whitespace: what the source's `\s` matches and `str.strip()`
removes (Python additionally covers rare non-ASCII spaces). -/
def isPySpace (c : Char) : Bool :=
  c = ' ' || c = '\t' || c = '\n' || c = '\r' || c = '\x0b' || c = '\x0c'

/-- `str.strip()`. -/
def pyStrip (s : String) : String :=
  ⟨((s.data.dropWhile isPySpace).reverse.dropWhile isPySpace).reverse⟩

/-- `str.lower()` on ASCII letters. -/
def pyLower (s : String) : String := ⟨s.data.map Char.toLower⟩

/-- `\s?`: drop one leading whitespace character if present.  Deterministic
whenever the following pattern token cannot match whitespace, which holds at
every use site in the two regexes. -/
def dropOptSpace (cs : List Char) : List Char :=
  match cs with
  | c :: rest => if isPySpace c then rest else c :: rest
  | [] => []

/-- The tail alternation `(co2e?|co₂e?)$`. -/
def co2TailOk (cs : List Char) : Bool :=
  decide (cs = "co2".data) || decide (cs = "co2e".data) ||
    decide (cs = "co₂".data) || decide (cs = "co₂e".data)

/-- `kg\s?(co2e?|co₂e?)$`. -/
def kgMatch (cs : List Char) : Bool :=
  match cs with
  | 'k' :: 'g' :: r2 => co2TailOk (dropOptSpace r2)
  | _ => false

/-- `^\d+\s?kg\s?(co2e?|co₂e?)$` on the (already lowercased) text. -/
def co2Match (cs : List Char) : Bool :=
  decide (cs.takeWhile Char.isDigit ≠ []) &&
    kgMatch (dropOptSpace (cs.dropWhile Char.isDigit))

/-- `^[£$€]\s?\d+`. -/
def priceMatch (cs : List Char) : Bool :=
  match cs with
  | c :: rest =>
    (decide (c = '£') || decide (c = '$') || decide (c = '€')) &&
      (match dropOptSpace rest with
       | d :: _ => d.isDigit
       | [] => false)
  | [] => false

/-- The validation loop (lines 445-458): strip both texts, test the two
regexes (the CO2 one on the lowercased text), and keep the record — with the
stripped texts written back — iff both match. -/
def validateFlights (l : List Flight) : List Flight :=
  l.filterMap (fun f =>
    let co2v := pyStrip f.co2
    let pricev := pyStrip f.price
    if co2Match (pyLower co2v).data && priceMatch pricev.data then
      some { f with co2 := co2v, price := pricev }
    else none)

/-- `\s?` as a declarative property: nothing, or one whitespace char. -/
def OptSpace (w : List Char) : Prop :=
  w = [] ∨ ∃ c, w = [c] ∧ isPySpace c = true

/-- The CO2 shape stated by the spec, on the lowercased stripped text:
digits, optional space, `kg`, optional space, one of `co2`, `co2e`, `co₂`,
`co₂e`, end of string. -/
def Co2Pattern (cs : List Char) : Prop :=
  ∃ ds w1 w2 t, cs = ds ++ w1 ++ ('k' :: 'g' :: []) ++ w2 ++ t ∧
    ds ≠ [] ∧ (∀ c ∈ ds, c.isDigit = true) ∧ OptSpace w1 ∧ OptSpace w2 ∧
    (t = "co2".data ∨ t = "co2e".data ∨ t = "co₂".data ∨ t = "co₂e".data)

/-- The price shape stated by the spec: a currency symbol `£`/`$`/`€`,
optional space, then a digit (anything may follow). -/
def PricePattern (cs : List Char) : Prop :=
  ∃ c w d rest, cs = c :: (w ++ d :: rest) ∧ (c = '£' ∨ c = '$' ∨ c = '€') ∧
    OptSpace w ∧ d.isDigit = true

theorem isPySpace_not_digit {c : Char} (h : isPySpace c = true) : c.isDigit = false := by
  rw [isPySpace] at h
  simp only [Bool.or_eq_true, decide_eq_true_eq] at h
  rcases h with ((((h | h) | h) | h) | h) | h <;> subst h <;> decide

theorem dropOptSpace_decompose (cs : List Char) :
    ∃ w, OptSpace w ∧ cs = w ++ dropOptSpace cs := by
  cases cs with
  | nil => exact ⟨[], Or.inl rfl, rfl⟩
  | cons c rest =>
    by_cases h : isPySpace c = true
    · exact ⟨[c], Or.inr ⟨c, rfl, h⟩, by simp [dropOptSpace, h]⟩
    · exact ⟨[], Or.inl rfl, by simp [dropOptSpace, h]⟩

theorem dropOptSpace_of_space {c : Char} (h : isPySpace c = true) (rest : List Char) :
    dropOptSpace (c :: rest) = rest := by
  simp [dropOptSpace, h]

theorem dropOptSpace_of_not_space {c : Char} (h : isPySpace c = false) (rest : List Char) :
    dropOptSpace (c :: rest) = c :: rest := by
  simp [dropOptSpace, h]

theorem kgMatch_eq_true {cs : List Char} (h : kgMatch cs = true) :
    ∃ r2, cs = 'k' :: 'g' :: r2 ∧ co2TailOk (dropOptSpace r2) = true := by
  rw [kgMatch.eq_def] at h
  split at h
  · next r2 => exact ⟨r2, rfl, h⟩
  · cases h

theorem co2TailOk_iff (t : List Char) :
    co2TailOk t = true ↔
      (t = "co2".data ∨ t = "co2e".data ∨ t = "co₂".data ∨ t = "co₂e".data) := by
  rw [co2TailOk]
  simp only [Bool.or_eq_true, decide_eq_true_eq]
  tauto

theorem tail_drop_eq {t : List Char}
    (h : t = "co2".data ∨ t = "co2e".data ∨ t = "co₂".data ∨ t = "co₂e".data) :
    dropOptSpace t = t := by
  rcases h with h | h | h | h <;> subst h <;> decide

theorem digit_not_space {c : Char} (h : c.isDigit = true) : isPySpace c = false := by
  cases hsp : isPySpace c
  · rfl
  · rw [isPySpace_not_digit hsp] at h
    cases h

theorem takeWhile_append_all {p : Char → Bool} :
    ∀ (ds r : List Char), (∀ c ∈ ds, p c = true) →
      (∀ c, r.head? = some c → p c = false) →
      (ds ++ r).takeWhile p = ds ∧ (ds ++ r).dropWhile p = r := by
  intro ds
  induction ds with
  | nil =>
    intro r hds hr
    simp only [List.nil_append]
    cases r with
    | nil => simp
    | cons c r2 =>
      have hc := hr c rfl
      simp [List.takeWhile_cons, List.dropWhile_cons, hc]
  | cons d ds2 ih =>
    intro r hds hr
    have hd : p d = true := hds d (by simp)
    have h2 := ih r (fun c hc => hds c (by simp [hc])) hr
    simp [List.takeWhile_cons, List.dropWhile_cons, hd, h2.1, h2.2]

/-- The embedded CO2 matcher recognises exactly the spec's CO2 shape. -/
theorem co2Match_iff (cs : List Char) : co2Match cs = true ↔ Co2Pattern cs := by
  constructor
  · intro h
    rw [co2Match, Bool.and_eq_true, decide_eq_true_eq] at h
    obtain ⟨hne, hkg⟩ := h
    obtain ⟨w1, hw1, hdec⟩ := dropOptSpace_decompose (cs.dropWhile Char.isDigit)
    obtain ⟨r2, hr2, htail⟩ := kgMatch_eq_true hkg
    obtain ⟨w2, hw2, hdec2⟩ := dropOptSpace_decompose r2
    have htmem := (co2TailOk_iff (dropOptSpace r2)).mp htail
    refine ⟨cs.takeWhile Char.isDigit, w1, w2, dropOptSpace r2, ?_, hne, ?_, hw1, hw2, htmem⟩
    · conv_lhs => rw [← List.takeWhile_append_dropWhile (p := Char.isDigit) (l := cs)]
      rw [hdec, hr2]
      conv_lhs => rw [hdec2]
      simp
    · intro c hc
      exact List.mem_takeWhile_imp hc
  · rintro ⟨ds, w1, w2, t, hcs, hne, hdig, hw1, hw2, htmem⟩
    rw [co2Match, Bool.and_eq_true, decide_eq_true_eq]
    have hkg : ∃ tl, w1 ++ ('k' :: 'g' :: []) ++ w2 ++ t = w1 ++ ('k' :: 'g' :: tl) ∧
        tl = w2 ++ t := ⟨w2 ++ t, by simp, rfl⟩
    have hr : ∀ c, (w1 ++ ('k' :: 'g' :: []) ++ w2 ++ t).head? = some c →
        Char.isDigit c = false := by
      rcases hw1 with rfl | ⟨c1, rfl, hc1⟩
      · intro c hc
        simp only [List.nil_append, List.cons_append, List.head?_cons,
          Option.some.injEq] at hc
        subst hc
        decide
      · intro c hc
        simp only [List.cons_append, List.head?_cons, Option.some.injEq] at hc
        subst hc
        exact isPySpace_not_digit hc1
    have hsplit := takeWhile_append_all ds (w1 ++ ('k' :: 'g' :: []) ++ w2 ++ t) hdig hr
    have hcs2 : cs = ds ++ (w1 ++ ('k' :: 'g' :: []) ++ w2 ++ t) := by
      rw [hcs]; simp
    rw [hcs2, hsplit.1, hsplit.2]
    refine ⟨hne, ?_⟩
    rcases hw1 with rfl | ⟨c1, rfl, hc1⟩
    · have hshape : ([] : List Char) ++ ('k' :: 'g' :: []) ++ w2 ++ t =
          'k' :: 'g' :: (w2 ++ t) := by simp
      rw [hshape, dropOptSpace_of_not_space (by decide), kgMatch]
      rcases hw2 with rfl | ⟨c2, rfl, hc2⟩
      · rw [List.nil_append, tail_drop_eq htmem]
        exact (co2TailOk_iff t).mpr htmem
      · show co2TailOk (dropOptSpace (c2 :: t)) = true
        rw [dropOptSpace_of_space hc2]
        exact (co2TailOk_iff t).mpr htmem
    · have hshape : ([c1] : List Char) ++ ('k' :: 'g' :: []) ++ w2 ++ t =
          c1 :: ('k' :: 'g' :: (w2 ++ t)) := by simp
      rw [hshape, dropOptSpace_of_space hc1, kgMatch]
      rcases hw2 with rfl | ⟨c2, rfl, hc2⟩
      · rw [List.nil_append, tail_drop_eq htmem]
        exact (co2TailOk_iff t).mpr htmem
      · show co2TailOk (dropOptSpace (c2 :: t)) = true
        rw [dropOptSpace_of_space hc2]
        exact (co2TailOk_iff t).mpr htmem

/-- The embedded price matcher recognises exactly the spec's price shape. -/
theorem priceMatch_iff (cs : List Char) : priceMatch cs = true ↔ PricePattern cs := by
  constructor
  · intro h
    cases cs with
    | nil => rw [priceMatch] at h; cases h
    | cons c rest =>
      rw [priceMatch, Bool.and_eq_true] at h
      obtain ⟨hsym, hd⟩ := h
      obtain ⟨w, hw, hdecomp⟩ := dropOptSpace_decompose rest
      cases hds : dropOptSpace rest with
      | nil => rw [hds] at hd; cases hd
      | cons d r2 =>
        rw [hds] at hd hdecomp
        refine ⟨c, w, d, r2, by rw [hdecomp], ?_, hw, hd⟩
        simp only [Bool.or_eq_true, decide_eq_true_eq] at hsym
        tauto
  · rintro ⟨c, w, d, r2, hcs, hsym, hw, hd⟩
    subst hcs
    rw [priceMatch, Bool.and_eq_true]
    constructor
    · simp only [Bool.or_eq_true, decide_eq_true_eq]
      tauto
    · rcases hw with rfl | ⟨c1, rfl, hc1⟩
      · rw [List.nil_append, dropOptSpace_of_not_space (digit_not_space hd)]
        exact hd
      · show (match dropOptSpace (c1 :: (d :: r2)) with
          | d :: _ => d.isDigit
          | [] => false) = true
        rw [dropOptSpace_of_space hc1]
        exact hd

/-- C5.  Validation gate: a record `g` belongs to the validated output
exactly when it is the stripped-field copy of an input record whose
lowercased, stripped CO2 text has the shape *digits, optional space, "kg",
optional space, "co2"/"co2e"/"co₂"/"co₂e", end* and whose stripped price
text has the shape *currency symbol £/$/€, optional space, digit*.  Records
failing either check never enter the candidate set. -/
theorem validation_gate (l : List Flight) (g : Flight) :
    g ∈ validateFlights l ↔
      ∃ f ∈ l, g = { f with co2 := pyStrip f.co2, price := pyStrip f.price } ∧
        Co2Pattern (pyLower (pyStrip f.co2)).data ∧
        PricePattern (pyStrip f.price).data := by
  rw [validateFlights, List.mem_filterMap]
  constructor
  · rintro ⟨f, hf, hsome⟩
    have hsome2 : (if co2Match (pyLower (pyStrip f.co2)).data &&
          priceMatch (pyStrip f.price).data then
        some { f with co2 := pyStrip f.co2, price := pyStrip f.price }
      else none) = some g := hsome
    by_cases hc : co2Match (pyLower (pyStrip f.co2)).data &&
        priceMatch (pyStrip f.price).data
    · rw [if_pos hc] at hsome2
      injection hsome2 with hg
      rw [Bool.and_eq_true] at hc
      exact ⟨f, hf, hg.symm, (co2Match_iff _).mp hc.1, (priceMatch_iff _).mp hc.2⟩
    · rw [if_neg hc] at hsome2
      cases hsome2
  · rintro ⟨f, hf, hg, hco2, hprice⟩
    refine ⟨f, hf, ?_⟩
    show (if co2Match (pyLower (pyStrip f.co2)).data &&
        priceMatch (pyStrip f.price).data then
        some { f with co2 := pyStrip f.co2, price := pyStrip f.price }
      else none) = some g
    have hb : (co2Match (pyLower (pyStrip f.co2)).data &&
        priceMatch (pyStrip f.price).data) = true := by
      rw [Bool.and_eq_true]
      exact ⟨(co2Match_iff _).mpr hco2, (priceMatch_iff _).mpr hprice⟩
    rw [if_pos hb, hg]

/-! ## Container bounding (`scrape_current_page_flights`, lines 414-426) -/

/-- `max_idx` computed at lines 419-422: `int(n/2 + 1)` for even `n` and
`int(n/2 + 1.5)` for odd `n` (exact float arithmetic on these magnitudes),
i.e. `n/2 + 1` resp. `(n+3)/2`. -/
def maxIdxRaw (n : ℕ) : ℕ := if n % 2 = 0 then n / 2 + 1 else (n + 3) / 2

/-- Lines 423-424: cap `max_idx` at `max_flights` (default 15). -/
def capIdx (maxFlights n : ℕ) : ℕ :=
  if maxIdxRaw n > maxFlights then maxFlights else maxIdxRaw n

/-- Lines 414-426: an empty container list returns immediately; otherwise
`containers = containers[:max_idx]` keeps only the first `max_idx`
containers, in page order, for extraction. -/
def boundContainers {α : Type} (l : List α) : List α :=
  if l.length = 0 then [] else l.take (capIdx 15 l.length)

/-- C7.  Bounding at the claim's concrete sizes: 10 located containers give
exactly the first 6 (`ceil(10/2)+1 = 6`), 30 give exactly the first 15 (the
cap applies); in both cases the processed containers are the prefix of the
located ones in page order. -/
theorem bounding_concrete {α : Type} (l₁ l₂ : List α)
    (h1 : l₁.length = 10) (h2 : l₂.length = 30) :
    boundContainers l₁ = l₁.take 6 ∧ (boundContainers l₁).length = 6 ∧
    boundContainers l₂ = l₂.take 15 ∧ (boundContainers l₂).length = 15 := by
  have hc1 : capIdx 15 10 = 6 := by decide
  have hc2 : capIdx 15 30 = 15 := by decide
  have e1 : boundContainers l₁ = l₁.take 6 := by
    rw [boundContainers, h1, if_neg (by decide), hc1]
  have e2 : boundContainers l₂ = l₂.take 15 := by
    rw [boundContainers, h2, if_neg (by decide), hc2]
  refine ⟨e1, ?_, e2, ?_⟩
  · rw [e1, List.length_take, h1]; decide
  · rw [e2, List.length_take, h2]; decide

theorem bounding_concrete_witness :
    boundContainers (List.range 10) = (List.range 10).take 6 ∧
    (boundContainers (List.range 10)).length = 6 ∧
    boundContainers (List.range 30) = (List.range 30).take 15 ∧
    (boundContainers (List.range 30)).length = 15 :=
  bounding_concrete (List.range 10) (List.range 30) (by decide) (by decide)

/-- C8, counterexample.  The claim's general bound `max(ceil(n/2)+1, cap)`
is wrong at `n = 10`: it evaluates to `max(6, 15) = 15`, but the code caps
from above and processes only 6 containers. -/
theorem bounding_formula_counterexample :
    (boundContainers (List.range 10)).length = 6 ∧
    max (10 / 2 + 1) 15 = 15 ∧ ¬ ((6 : ℕ) = 15) := by decide

/-- C8, amended.  For every nonempty list of `n` located containers, only the
first `min(ceil(n/2) + 1, 15)` are processed (`ceil(n/2) = (n+1)/2`); for
`n = 0` nothing is processed. -/
theorem bounding_formula_amended {α : Type} (l : List α) (h : l ≠ []) :
    boundContainers l = l.take (min ((l.length + 1) / 2 + 1) 15) := by
  have hlen : ¬ (l.length = 0) := fun h0 => h (List.eq_nil_of_length_eq_zero h0)
  rw [boundContainers, if_neg hlen]
  congr 1
  rw [capIdx, maxIdxRaw]
  split_ifs <;> omega

theorem bounding_formula_amended_witness :
    boundContainers (List.range 7) =
      (List.range 7).take (min (((List.range 7).length + 1) / 2 + 1) 15) :=
  bounding_formula_amended (List.range 7) (by decide)

/-! ## Date conversion (`convert_date_with_smart_year`, lines 75-105)

`datetime.strptime` is embedded per format.  CPython's `_strptime` compiles a
format to a regex: `%d` becomes `3[01]|[12]\d|0[1-9]|[1-9]`, `%m` becomes
`1[0-2]|0[1-9]|[1-9]`, `%Y` exactly four digits, `%b`/`%B`/`%a` a
case-insensitive alternation of English month/weekday names, a space in the
format one-or-more whitespace, and the whole string must be consumed.  In
all fourteen formats used here every numeric token is followed by a literal,
whitespace or end of input, none of which can match a digit, so the greedy
two-digit-first reading below is the unique regex match.  After the regex,
`datetime(...)` (or year 1900 for year-less formats) validates the calendar
date, and a failure falls through to the next format.  The parsed weekday of
`%a` is not cross-checked.  Totality is immediate: every branch returns. -/

structure Date where
  year : ℕ
  month : ℕ
  day : ℕ
  deriving DecidableEq, Repr

/-- Month lengths under `datetime`'s proleptic Gregorian calendar. -/
def daysInMonth (y m : ℕ) : ℕ :=
  if m = 2 then
    if y % 4 = 0 ∧ (y % 100 ≠ 0 ∨ y % 400 = 0) then 29 else 28
  else if m = 4 ∨ m = 6 ∨ m = 9 ∨ m = 11 then 30
  else 31

/-- The `datetime(year, month, day)` constructor checks. -/
def validDate (y m d : ℕ) : Bool :=
  decide (1 ≤ y) && decide (y ≤ 9999) && decide (1 ≤ m) && decide (m ≤ 12) &&
    decide (1 ≤ d) && decide (d ≤ daysInMonth y m)

def digitVal (c : Char) : ℕ := c.toNat - 48

/-- `%d` (`3[01]|[12]\d|0[1-9]|[1-9]`). -/
def parseD : List Char → Option (ℕ × List Char)
  | c1 :: c2 :: rest =>
    if c1 = '3' ∧ (c2 = '0' ∨ c2 = '1') then some (30 + digitVal c2, rest)
    else if (c1 = '1' ∨ c1 = '2') ∧ c2.isDigit then
      some (10 * digitVal c1 + digitVal c2, rest)
    else if c1 = '0' ∧ c2.isDigit ∧ c2 ≠ '0' then some (digitVal c2, rest)
    else if c1.isDigit ∧ c1 ≠ '0' then some (digitVal c1, c2 :: rest)
    else none
  | [c1] => if c1.isDigit ∧ c1 ≠ '0' then some (digitVal c1, []) else none
  | [] => none

/-- `%m` (`1[0-2]|0[1-9]|[1-9]`). -/
def parseM : List Char → Option (ℕ × List Char)
  | c1 :: c2 :: rest =>
    if c1 = '1' ∧ (c2 = '0' ∨ c2 = '1' ∨ c2 = '2') then some (10 + digitVal c2, rest)
    else if c1 = '0' ∧ c2.isDigit ∧ c2 ≠ '0' then some (digitVal c2, rest)
    else if c1.isDigit ∧ c1 ≠ '0' then some (digitVal c1, c2 :: rest)
    else none
  | [c1] => if c1.isDigit ∧ c1 ≠ '0' then some (digitVal c1, []) else none
  | [] => none

/-- `%Y`: exactly four digits. -/
def parseY : List Char → Option (ℕ × List Char)
  | c1 :: c2 :: c3 :: c4 :: rest =>
    if c1.isDigit ∧ c2.isDigit ∧ c3.isDigit ∧ c4.isDigit then
      some (1000 * digitVal c1 + 100 * digitVal c2 + 10 * digitVal c3 + digitVal c4,
        rest)
    else none
  | _ => none

/-- Case-insensitive literal word match (`re.IGNORECASE`); the pattern is
given lowercase. -/
def matchCI : List Char → List Char → Option (List Char)
  | [], cs => some cs
  | _ :: _, [] => none
  | p :: ps, c :: cs => if c.toLower = p then matchCI ps cs else none

def monthAbbrevs : List (List Char × ℕ) :=
  [("jan".data, 1), ("feb".data, 2), ("mar".data, 3), ("apr".data, 4),
   ("may".data, 5), ("jun".data, 6), ("jul".data, 7), ("aug".data, 8),
   ("sep".data, 9), ("oct".data, 10), ("nov".data, 11), ("dec".data, 12)]

def monthFulls : List (List Char × ℕ) :=
  [("january".data, 1), ("february".data, 2), ("march".data, 3),
   ("april".data, 4), ("may".data, 5), ("june".data, 6), ("july".data, 7),
   ("august".data, 8), ("september".data, 9), ("october".data, 10),
   ("november".data, 11), ("december".data, 12)]

def weekdayAbbrevs : List (List Char) :=
  ["mon".data, "tue".data, "wed".data, "thu".data, "fri".data, "sat".data,
   "sun".data]

/-- `%b` / `%B`: the (unique) table entry matching case-insensitively. -/
def parseName (table : List (List Char × ℕ)) (cs : List Char) :
    Option (ℕ × List Char) :=
  match table with
  | [] => none
  | (p, v) :: rest =>
    match matchCI p cs with
    | some cs2 => some (v, cs2)
    | none => parseName rest cs

/-- `%a`: a weekday abbreviation, parsed and discarded. -/
def parseA (table : List (List Char)) (cs : List Char) : Option (List Char) :=
  match table with
  | [] => none
  | p :: rest =>
    match matchCI p cs with
    | some cs2 => some cs2
    | none => parseA rest cs

/-- A space in the format: `\s+`. -/
def ws1 (cs : List Char) : Option (List Char) :=
  match cs with
  | c :: rest => if isPySpace c then some (rest.dropWhile isPySpace) else none
  | [] => none

/-- A literal punctuation character of the format. -/
def lit (ch : Char) : List Char → Option (List Char)
  | c :: rest => if c = ch then some rest else none
  | [] => none

/-- Build the date iff `datetime(y, m, d)` accepts it. -/
def mkDate (y m d : ℕ) : Option Date :=
  if validDate y m d then some ⟨y, m, d⟩ else none

/-- Year-less result, validated against the default year 1900. -/
def mkMD (m d : ℕ) : Option (ℕ × ℕ) :=
  if validDate 1900 m d then some (m, d) else none

def fbdY (cs : List Char) : Option Date := do
  let (m, cs) ← parseName monthAbbrevs cs
  let cs ← ws1 cs
  let (d, cs) ← parseD cs
  let cs ← lit ',' cs
  let cs ← ws1 cs
  let (y, cs) ← parseY cs
  if cs = [] then mkDate y m d else none

def fBdY (cs : List Char) : Option Date := do
  let (m, cs) ← parseName monthFulls cs
  let cs ← ws1 cs
  let (d, cs) ← parseD cs
  let cs ← lit ',' cs
  let cs ← ws1 cs
  let (y, cs) ← parseY cs
  if cs = [] then mkDate y m d else none

def fmdY (cs : List Char) : Option Date := do
  let (m, cs) ← parseM cs
  let cs ← lit '/' cs
  let (d, cs) ← parseD cs
  let cs ← lit '/' cs
  let (y, cs) ← parseY cs
  if cs = [] then mkDate y m d else none

def fdmY (cs : List Char) : Option Date := do
  let (d, cs) ← parseD cs
  let cs ← lit '/' cs
  let (m, cs) ← parseM cs
  let cs ← lit '/' cs
  let (y, cs) ← parseY cs
  if cs = [] then mkDate y m d else none

def fYmd (cs : List Char) : Option Date := do
  let (y, cs) ← parseY cs
  let cs ← lit '-' cs
  let (m, cs) ← parseM cs
  let cs ← lit '-' cs
  let (d, cs) ← parseD cs
  if cs = [] then mkDate y m d else none

def fdbY (cs : List Char) : Option Date := do
  let (d, cs) ← parseD cs
  let cs ← ws1 cs
  let (m, cs) ← parseName monthAbbrevs cs
  let cs ← ws1 cs
  let (y, cs) ← parseY cs
  if cs = [] then mkDate y m d else none

def fdBY (cs : List Char) : Option Date := do
  let (d, cs) ← parseD cs
  let cs ← ws1 cs
  let (m, cs) ← parseName monthFulls cs
  let cs ← ws1 cs
  let (y, cs) ← parseY cs
  if cs = [] then mkDate y m d else none

/-- `formats_with_year` in source order (lines 81-83, 85-89). -/
def tryWithYear (cs : List Char) : Option Date :=
  fbdY cs <|> fBdY cs <|> fmdY cs <|> fdmY cs <|> fYmd cs <|> fdbY cs <|> fdBY cs

def gabd (cs : List Char) : Option (ℕ × ℕ) := do
  let cs ← parseA weekdayAbbrevs cs
  let cs ← lit ',' cs
  let cs ← ws1 cs
  let (m, cs) ← parseName monthAbbrevs cs
  let cs ← ws1 cs
  let (d, cs) ← parseD cs
  if cs = [] then mkMD m d else none

def gbd (cs : List Char) : Option (ℕ × ℕ) := do
  let (m, cs) ← parseName monthAbbrevs cs
  let cs ← ws1 cs
  let (d, cs) ← parseD cs
  if cs = [] then mkMD m d else none

def gBd (cs : List Char) : Option (ℕ × ℕ) := do
  let (m, cs) ← parseName monthFulls cs
  let cs ← ws1 cs
  let (d, cs) ← parseD cs
  if cs = [] then mkMD m d else none

def gmd (cs : List Char) : Option (ℕ × ℕ) := do
  let (m, cs) ← parseM cs
  let cs ← lit '/' cs
  let (d, cs) ← parseD cs
  if cs = [] then mkMD m d else none

def gdm (cs : List Char) : Option (ℕ × ℕ) := do
  let (d, cs) ← parseD cs
  let cs ← lit '/' cs
  let (m, cs) ← parseM cs
  if cs = [] then mkMD m d else none

def gdb (cs : List Char) : Option (ℕ × ℕ) := do
  let (d, cs) ← parseD cs
  let cs ← ws1 cs
  let (m, cs) ← parseName monthAbbrevs cs
  if cs = [] then mkMD m d else none

def gdB (cs : List Char) : Option (ℕ × ℕ) := do
  let (d, cs) ← parseD cs
  let cs ← ws1 cs
  let (m, cs) ← parseName monthFulls cs
  if cs = [] then mkMD m d else none

/-- `formats_without_year` in source order (lines 78-80, 94-101). -/
def tryNoYear (cs : List Char) : Option (ℕ × ℕ) :=
  gabd cs <|> gbd cs <|> gBd cs <|> gmd cs <|> gdm cs <|> gdb cs <|> gdB cs

def digitChar (n : ℕ) : Char := Char.ofNat (48 + n % 10)

/-- Two-digit zero-padded field of `strftime` (months and days stay below
100). -/
def pad2 (n : ℕ) : List Char := [digitChar (n / 10), digitChar n]

/-- Four-digit zero-padded field of `strftime` (validated years stay below
10000). -/
def pad4 (n : ℕ) : List Char :=
  [digitChar (n / 1000), digitChar (n / 100), digitChar (n / 10), digitChar n]

/-- `strftime("%Y-%m-%d")`. -/
def fmtDate (dt : Date) : String :=
  ⟨pad4 dt.year ++ '-' :: (pad2 dt.month ++ '-' :: pad2 dt.day)⟩

/-- `parsed_date.date() < today.date()`: strict lexicographic comparison. -/
def dateLtB (a b : Date) : Bool :=
  decide (a.year < b.year) ||
    (decide (a.year = b.year) &&
      (decide (a.month < b.month) ||
        (decide (a.month = b.month) && decide (a.day < b.day))))

/-- `convert_date_with_smart_year` (lines 75-105): year-bearing formats are
tried first and formatted directly; otherwise a year-less parse gets the
current year, bumped by one when the resulting date is strictly before
today; otherwise the input is returned unchanged.  (`today` is the
`datetime.now()` the source reads; the model assumes `today.year ≤ 9998`,
since at `datetime`'s MAXYEAR boundary the source's `replace(year=...)`
would raise and skip the format.) -/
def convert_date_with_smart_year (today : Date) (s : String) : String :=
  match tryWithYear s.data with
  | some dt => fmtDate dt
  | none =>
    match tryNoYear s.data with
    | some (m, d) =>
      if dateLtB ⟨today.year, m, d⟩ today then fmtDate ⟨today.year + 1, m, d⟩
      else fmtDate ⟨today.year, m, d⟩
    | none => s

/-- The `YYYY-MM-DD` output shape. -/
def IsIsoDate (s : String) : Prop :=
  ∃ a b c d e f g h,
    s.data = [a, b, c, d, '-', e, f, '-', g, h] ∧
    (∀ x ∈ [a, b, c, d, e, f, g, h], Char.isDigit x = true)

theorem digitChar_isDigit (n : ℕ) : (digitChar n).isDigit = true := by
  have h : n % 10 < 10 := Nat.mod_lt _ (by norm_num)
  unfold digitChar
  interval_cases hr : n % 10 <;> decide

theorem fmtDate_iso (dt : Date) : IsIsoDate (fmtDate dt) := by
  refine ⟨digitChar (dt.year / 1000), digitChar (dt.year / 100),
    digitChar (dt.year / 10), digitChar dt.year, digitChar (dt.month / 10),
    digitChar dt.month, digitChar (dt.day / 10), digitChar dt.day, rfl, ?_⟩
  intro x hx
  simp only [List.mem_cons, List.not_mem_nil, or_false] at hx
  rcases hx with rfl | rfl | rfl | rfl | rfl | rfl | rfl | rfl
  all_goals exact digitChar_isDigit _

/-- C10.  `convert_date_with_smart_year` is total and falls into exactly one
of three cases: a year-bearing parse is formatted as `YYYY-MM-DD`; otherwise
a year-less parse is assigned the current year, bumped to the following year
exactly when that calendar date is strictly before today, and formatted as
`YYYY-MM-DD`; otherwise the input string is returned unchanged.  (The
hypothesis keeps the model inside `datetime`'s year range, where the
source's `replace(year=current_year + 1)` cannot raise.) -/
theorem date_conversion (today : Date) (s : String) (_htoday : today.year ≤ 9998) :
    (∃ dt, tryWithYear s.data = some dt ∧
      convert_date_with_smart_year today s = fmtDate dt ∧
      IsIsoDate (convert_date_with_smart_year today s))
    ∨ (tryWithYear s.data = none ∧
       ∃ m d, tryNoYear s.data = some (m, d) ∧
         ((dateLtB ⟨today.year, m, d⟩ today = true ∧
            convert_date_with_smart_year today s = fmtDate ⟨today.year + 1, m, d⟩) ∨
          (dateLtB ⟨today.year, m, d⟩ today = false ∧
            convert_date_with_smart_year today s = fmtDate ⟨today.year, m, d⟩)) ∧
         IsIsoDate (convert_date_with_smart_year today s))
    ∨ (tryWithYear s.data = none ∧ tryNoYear s.data = none ∧
       convert_date_with_smart_year today s = s) := by
  cases hw : tryWithYear s.data with
  | some dt =>
    left
    have hc : convert_date_with_smart_year today s = fmtDate dt := by
      unfold convert_date_with_smart_year
      rw [hw]
    exact ⟨dt, rfl, hc, hc ▸ fmtDate_iso dt⟩
  | none =>
    cases hn : tryNoYear s.data with
    | some md =>
      right; left
      rcases md with ⟨m, d⟩
      have hbody : convert_date_with_smart_year today s =
          (if dateLtB ⟨today.year, m, d⟩ today then fmtDate ⟨today.year + 1, m, d⟩
           else fmtDate ⟨today.year, m, d⟩) := by
        unfold convert_date_with_smart_year
        rw [hw, hn]
      refine ⟨rfl, m, d, rfl, ?_, ?_⟩
      · by_cases hlt : dateLtB ⟨today.year, m, d⟩ today = true
        · exact Or.inl ⟨hlt, by rw [hbody, if_pos hlt]⟩
        · refine Or.inr ⟨?_, by rw [hbody, if_neg hlt]⟩
          cases hb : dateLtB ⟨today.year, m, d⟩ today
          · rfl
          · exact absurd hb hlt
      · rw [hbody]
        by_cases hlt : dateLtB ⟨today.year, m, d⟩ today = true
        · rw [if_pos hlt]; exact fmtDate_iso _
        · rw [if_neg hlt]; exact fmtDate_iso _
    | none =>
      right; right
      refine ⟨rfl, rfl, ?_⟩
      unfold convert_date_with_smart_year
      rw [hw, hn]

theorem date_conversion_witness :
    convert_date_with_smart_year ⟨2026, 10, 12⟩ "Mar 5" = "2027-03-05" ∧
    IsIsoDate (convert_date_with_smart_year ⟨2026, 10, 12⟩ "Mar 5") := by
  have h := date_conversion ⟨2026, 10, 12⟩ "Mar 5" (by norm_num)
  refine ⟨by decide, ?_⟩
  rcases h with ⟨dt, _, _, hiso⟩ | ⟨_, m, d, _, _, hiso⟩ | ⟨_, hn, _⟩
  · exact hiso
  · exact hiso
  · exact absurd hn (by decide)

end FlightScraper
